import Mathlib

/-!
Verification of the return-calculation and data-fetch utilities of the
financial-risk-forecasting repository (src/src/utils.py).

The pandas/numpy data model is embedded shallowly:

* A table cell is a `Cell α`: either a finite value `fin x`, a missing
  value / NaN `na` (pandas uses NaN for both), or a signed infinity
  `pinf` / `ninf` (produced by float division by zero, kept by dropna).
* A Series is a `List (Cell α)`; a DataFrame is a `Frame α`, a list of
  (timestamp, row) pairs where each row holds one cell per instrument
  (column).  pandas `dropna()` on a DataFrame drops a whole row when any
  column holds NaN, and keeps the original index on surviving rows.
* `pct_change` is modelled with its current default `fill_method=None`:
  the first row and any row whose current or prior value is NaN yield NaN.
* `prod()` / `sum()` skip NaN (pandas default `skipna=True`), and the
  empty product/sum are 1 and 0.

Machine floats are abstracted to an arbitrary linearly ordered field
(instantiated at ℚ for executable counterexamples and at ℝ for the
claims that involve the natural logarithm).
-/

inductive Cell (α : Type) where
  | na
  | fin (x : α)
  | pinf
  | ninf
deriving DecidableEq

variable {α : Type} [LinearOrderedField α]

/-- pandas `isna`: only NaN/missing counts, infinities are ordinary values. -/
def Cell.isna : Cell α → Bool
  | .na => true
  | _ => false

/-- IEEE-754 style division as numpy/pandas performs it on float cells:
NaN propagates, a nonzero value divided by zero gives a signed infinity,
0/0 gives NaN. -/
def cdiv : Cell α → Cell α → Cell α
  | .na, _ => .na
  | _, .na => .na
  | .fin x, .fin y =>
      if y = 0 then
        if x = 0 then .na else if 0 < x then .pinf else .ninf
      else .fin (x / y)
  | .fin _, .pinf => .fin 0
  | .fin _, .ninf => .fin 0
  | .pinf, .fin y => if 0 ≤ y then .pinf else .ninf
  | .ninf, .fin y => if 0 ≤ y then .ninf else .pinf
  | .pinf, .pinf => .na
  | .pinf, .ninf => .na
  | .ninf, .pinf => .na
  | .ninf, .ninf => .na

/-- Elementwise `- 1` (the trailing `- 1` of `pct_change` and of
`(1 + returns).prod() - 1`). -/
def csub1 : Cell α → Cell α
  | .fin x => .fin (x - 1)
  | .pinf => .pinf
  | .ninf => .ninf
  | .na => .na

/-- Elementwise `1 + r` of `(1 + returns)`. -/
def cadd1 : Cell α → Cell α
  | .fin x => .fin (1 + x)
  | .pinf => .pinf
  | .ninf => .ninf
  | .na => .na

/-- IEEE-754 style multiplication (for the skipna product). -/
def cmul : Cell α → Cell α → Cell α
  | .na, _ => .na
  | _, .na => .na
  | .fin x, .fin y => .fin (x * y)
  | .fin x, .pinf => if x = 0 then .na else if 0 < x then .pinf else .ninf
  | .fin x, .ninf => if x = 0 then .na else if 0 < x then .ninf else .pinf
  | .pinf, .fin y => if y = 0 then .na else if 0 < y then .pinf else .ninf
  | .ninf, .fin y => if y = 0 then .na else if 0 < y then .ninf else .pinf
  | .pinf, .pinf => .pinf
  | .pinf, .ninf => .ninf
  | .ninf, .pinf => .ninf
  | .ninf, .ninf => .pinf

/-- IEEE-754 style addition (for the skipna sum). -/
def cadd : Cell α → Cell α → Cell α
  | .na, _ => .na
  | _, .na => .na
  | .fin x, .fin y => .fin (x + y)
  | .fin _, .pinf => .pinf
  | .fin _, .ninf => .ninf
  | .pinf, .fin _ => .pinf
  | .ninf, .fin _ => .ninf
  | .pinf, .pinf => .pinf
  | .pinf, .ninf => .na
  | .ninf, .pinf => .na
  | .ninf, .ninf => .ninf

/-- `Series.dropna()`: remove NaN entries, keep everything else
(including infinities). -/
def dropnaS (xs : List (Cell α)) : List (Cell α) :=
  xs.filter (fun c => ! c.isna)

/-- One cell of `prices.pct_change()`: current divided by prior, minus 1. -/
def pctCell (cur prev : Cell α) : Cell α := csub1 (cdiv cur prev)

/-- Consecutive-difference combinator on a Series, after the first entry:
each output cell combines the current cell with the previous cell. -/
def diffAuxS (g : Cell α → Cell α → Cell α) : Cell α → List (Cell α) → List (Cell α)
  | _, [] => []
  | prev, c :: cs => g c prev :: diffAuxS g c cs

/-- Consecutive-difference combinator on a Series.  The first entry has no
prior value (`shift(1)` puts NaN there), so it is combined with `na`. -/
def diffSeriesWith (g : Cell α → Cell α → Cell α) : List (Cell α) → List (Cell α)
  | [] => []
  | c :: cs => g c .na :: diffAuxS g c cs

/-- utils.py line 64: `prices.pct_change().dropna()` (Series form). -/
def simple_returns (prices : List (Cell α)) : List (Cell α) :=
  dropnaS (diffSeriesWith pctCell prices)

/-- `.prod()` with the pandas default `skipna=True`; the empty product is 1. -/
def cprodSkipna (xs : List (Cell α)) : Cell α :=
  (dropnaS xs).foldr cmul (.fin 1)

/-- `.sum()` with the pandas default `skipna=True`; the empty sum is 0. -/
def csumSkipna (xs : List (Cell α)) : Cell α :=
  (dropnaS xs).foldr cadd (.fin 0)

/-- utils.py line 86: `(1 + returns).prod() - 1` (per instrument). -/
def compound_simple_returns_over_period (returns : List (Cell α)) : Cell α :=
  csub1 (cprodSkipna (returns.map cadd1))

/-- utils.py line 97: `returns.sum()` (per instrument). -/
def compound_continuous_returns_over_period (returns : List (Cell α)) : Cell α :=
  csumSkipna returns

/-- A DataFrame: rows in timestamp order, each row carrying its timestamp
(index label) and one cell per instrument, in a fixed column order. -/
abbrev Frame (α : Type) := List (ℕ × List (Cell α))

/-- Row-wise consecutive differences for the rows after the first:
each row is combined cell-by-cell with the previous row. -/
def diffAuxF (g : Cell α → Cell α → Cell α) : List (Cell α) → Frame α → Frame α
  | _, [] => []
  | prev, (t, r) :: rs =>
      (t, (r.zip prev).map (fun p => g p.1 p.2)) :: diffAuxF g r rs

/-- Row-wise consecutive differences on a DataFrame; the first row has no
prior row, so each of its cells is combined with `na`. -/
def diffFrameWith (g : Cell α → Cell α → Cell α) : Frame α → Frame α
  | [] => []
  | (t, r) :: rs => (t, r.map (fun c => g c .na)) :: diffAuxF g r rs

/-- `DataFrame.dropna()`: drop every row that holds NaN in any column;
surviving rows keep their timestamps and all their values. -/
def dropnaF (f : Frame α) : Frame α :=
  f.filter (fun p => ! p.2.any Cell.isna)

/-- utils.py line 64: `prices.pct_change().dropna()` (DataFrame form). -/
def simple_returnsDF (prices : Frame α) : Frame α :=
  dropnaF (diffFrameWith pctCell prices)

/-- numpy `log` on a float cell: NaN for negative arguments (and NaN),
negative infinity at 0, the real logarithm on positive values. -/
noncomputable def clog : Cell ℝ → Cell ℝ
  | .fin x => if 0 < x then .fin (Real.log x) else if x = 0 then .ninf else .na
  | .pinf => .pinf
  | .ninf => .na
  | .na => .na

/-- One cell of `np.log(x / x.shift(1))`. -/
noncomputable def logCell (cur prev : Cell ℝ) : Cell ℝ := clog (cdiv cur prev)

/-- utils.py line 75: `prices.apply(lambda x: np.log(x / x.shift(1))).dropna()`.
`apply` on a DataFrame hands each column Series to the lambda, so this is
the row-aligned column-wise log difference followed by the whole-row drop.
(On a bare Series the Python expression raises, since `apply` would hand
scalars to the lambda; only the DataFrame form is defined.) -/
noncomputable def continuously_compound_returnsDF (prices : Frame ℝ) : Frame ℝ :=
  dropnaF (diffFrameWith logCell prices)

/-- Extract column j of a DataFrame as a Series (used to read one
instrument off a result table). -/
def colOf (j : ℕ) (f : Frame α) : List (Cell α) :=
  f.filterMap (fun p => p.2.get? j)

/-- Build a one-instrument DataFrame from a timestamped price list. -/
def mkSingleFrame (f : List (ℕ × ℝ)) : Frame ℝ :=
  f.map (fun q => (q.1, [Cell.fin q.2]))

/-! ## The data-fetch layer (utils.py lines 19-40)

The two network collaborators (Wikipedia table scrape, yfinance download)
are passed in as values of `Except`, exactly capturing "returns a value or
raises"; the first-party control flow around them is translated directly.
-/

/-- A parsed HTML table: named columns of strings. -/
structure WikiTable where
  cols : List (String × List String)

/-- Column lookup on a parsed table (`sp500_table[name]`); `none` is the
KeyError case. -/
def getCol (tbl : WikiTable) (name : String) : Option (List String) :=
  (tbl.cols.find? (fun c => c.1 == name)).map (fun c => c.2)

/-- The message of the RuntimeError raised at utils.py line 25. -/
def wikiFailureMsg : String := "Failed to fetch S&P 500 tickers from Wikipedia."

/-- utils.py lines 19-25: fetch the constituent table and extract the
Symbol column; any failure inside the try block (network/parse error,
no table at index 0, missing Symbol column) is caught and re-raised as
one RuntimeError. -/
def fetchSp500Tickers (html : Except Unit (List WikiTable)) : Except String (List String) :=
  match html with
  | Except.error _ => Except.error wikiFailureMsg
  | Except.ok tables =>
    match tables with
    | [] => Except.error wikiFailureMsg
    | t0 :: _ =>
      match getCol t0 "Symbol" with
      | none => Except.error wikiFailureMsg
      | some ts => Except.ok ts

/-- utils.py line 28: ticker normalization, replacing each period with a
hyphen (a single-character replace). -/
def normalizeTicker (t : List Char) : List Char :=
  t.map (fun c => if c = '.' then '-' else c)

/-- utils.py line 36: the per-ticker fallback, a dict comprehension that
queries the tickers sequentially, stops at the first raised error, and
otherwise assembles the table in ticker order.  The first component
records which tickers were actually requested. -/
def perTickerDownload {ε σ : Type} (single : String → Except ε σ) :
    List String → List String × Except ε (List (String × σ))
  | [] => ([], Except.ok [])
  | t :: ts =>
    match single t with
    | Except.error e => ([t], Except.error e)
    | Except.ok s =>
      let r := perTickerDownload single ts
      (t :: r.1, r.2.map (fun tbl => (t, s) :: tbl))

/-- utils.py lines 32-36: try the bulk download, and on any error fall
back to the sequential per-ticker download. -/
def fetchAdjClose {ε σ : Type} (bulk : Except ε (List (String × σ)))
    (single : String → Except ε σ) (tickers : List String) :
    Except ε (List (String × σ)) :=
  match bulk with
  | Except.ok tbl => Except.ok tbl
  | Except.error _ => (perTickerDownload single tickers).2

/-- Modelled from the spec: a successful bulk download returns one
adjusted-close series per requested ticker, keyed by ticker, in request
order (the yfinance collaborator's contract, PriceSeriesFetcher in the
spec).  Used to state that the fallback assembles the same table a
successful bulk call would have produced. -/
def bulkTableOf {σ : Type} (d : String → σ) (tickers : List String) : List (String × σ) :=
  tickers.map (fun t => (t, d t))

/-- The value produced by the download step before normalization: a bare
Series (what yfinance returns for a single ticker) or a keyed table. -/
inductive RawAdj (σ : Type) where
  | series (s : σ)
  | frame (tbl : List (String × σ))

/-- utils.py lines 38-40: if the download produced a bare Series, wrap it
into a one-column table keyed by the first ticker
(`adj.to_frame(name=tickers[0])`); a table passes through unchanged.
(With an empty ticker list the Python indexing would raise; that case is
outside every claim and mapped to the empty table.) -/
def ensureFrame {σ : Type} (tickers : List String) : RawAdj σ → List (String × σ)
  | RawAdj.frame tbl => tbl
  | RawAdj.series s =>
    match tickers with
    | [] => []
    | t :: _ => [(t, s)]

/-! ## Helper lemmas -/

theorem cdiv_na_right (c : Cell α) : cdiv c Cell.na = Cell.na := by
  cases c <;> rfl

theorem cdiv_na_left (c : Cell α) : cdiv Cell.na c = Cell.na := by
  cases c <;> rfl

theorem pctCell_na_right (c : Cell α) : pctCell c Cell.na = Cell.na := by
  cases c <;> rfl

theorem pctCell_na_left (c : Cell α) : pctCell Cell.na c = Cell.na := by
  cases c <;> rfl

theorem logCell_na_right (c : Cell ℝ) : logCell c Cell.na = Cell.na := by
  cases c <;> rfl

theorem logCell_na_left (c : Cell ℝ) : logCell Cell.na c = Cell.na := by
  cases c <;> rfl

/-! ## C8: ticker normalization -/

/-- C8: every literal period in a resolved ticker is replaced by a hyphen
before the ticker is passed to the price fetcher, and a ticker containing
no period is passed through unchanged. -/
theorem ticker_normalization_replaces_dots (t : List Char) :
    '.' ∉ normalizeTicker t ∧ ('.' ∉ t → normalizeTicker t = t) := by
  constructor
  · intro hmem
    rcases List.mem_map.mp hmem with ⟨c, _, hc⟩
    by_cases h : c = '.'
    · simp [h] at hc
    · simp [h] at hc
  · intro hno
    have : ∀ c ∈ t, (fun c => if c = '.' then '-' else c) c = c := by
      intro c hc
      have : c ≠ '.' := fun h => hno (h ▸ hc)
      simp [this]
    simpa [normalizeTicker] using List.map_congr_left this ▸ (List.map_id t)

/-- Witness for C8 at the spec's two examples. -/
theorem ticker_normalization_replaces_dots_witness :
    normalizeTicker "BRK.B".toList = "BRK-B".toList ∧
      normalizeTicker "AAPL".toList = "AAPL".toList :=
  ⟨by decide, (ticker_normalization_replaces_dots "AAPL".toList).2 (by decide)⟩

/-! ## C9: single-ticker result shape -/

/-- C9: when the provider hands back a bare Series for a single requested
ticker, the result is still shaped as a PriceTable keyed by that one
ticker; an already keyed table passes through unchanged. -/
theorem single_ticker_yields_keyed_table {σ : Type} :
    (∀ (t : String) (s : σ), ensureFrame [t] (RawAdj.series s) = [(t, s)]) ∧
      (∀ (tickers : List String) (tbl : List (String × σ)),
        ensureFrame tickers (RawAdj.frame tbl) = tbl) :=
  ⟨fun _ _ => rfl, fun _ _ => rfl⟩

/-! ## C10: empty return tables -/

/-- C10: on an instrument with an empty return sequence, the simple
compounder returns 0 (the empty skipna product is 1, minus 1) and the
continuous compounder returns 0 (the empty skipna sum); both are total
functions, so neither can raise. -/
theorem compound_empty_returns_zero :
    compound_simple_returns_over_period ([] : List (Cell ℚ)) = Cell.fin 0 ∧
      compound_continuous_returns_over_period ([] : List (Cell ℚ)) = Cell.fin 0 := by
  constructor
  · show csub1 (cprodSkipna _) = _
    norm_num [cprodSkipna, dropnaS, csub1]
  · rfl

/-! ## C3 (counterexample part): whole-row dropping -/

/-- C3 is false on the code: in a two-instrument table where only
instrument X (column 0) is missing at timestamp 1, `dropna` removes whole
rows, so instrument Y (column 1, fully populated with 100, 110, 121)
loses every one of its return rows as well — the output is empty, while
the claim says Y retains its rows at timestamps 1 and 2 unchanged. -/
theorem dropna_affects_other_instruments_cex :
    simple_returnsDF ([(0, [Cell.fin 100, Cell.fin 100]),
      (1, [Cell.na, Cell.fin 110]),
      (2, [Cell.fin 121, Cell.fin 121])] : Frame ℚ) = [] := by
  decide

/-! ## C4 (counterexample part): division by zero reaches the output -/

/-- C4 is false on the code: a zero prior price is not excluded before
the arithmetic step.  For prices 1, 0, 1 the division 1/0 is evaluated
and its infinite result survives `dropna`, appearing in the output at
timestamp 2. -/
theorem zero_prior_price_yields_inf_cex :
    (2, [Cell.pinf]) ∈ simple_returnsDF
      ([(0, [Cell.fin 1]), (1, [Cell.fin 0]), (2, [Cell.fin 1])] : Frame ℚ) := by
  decide

/-! ## C5 (counterexample part): row count can drop below n-1 -/

/-- C5 is false on the code as stated: a PriceTable may hold zero prices
(the data model only requires non-negative prices), and for the
two-row table with prices 0, 0 — non-empty, with no missing values —
`pct_change` evaluates 0/0 to NaN, `dropna` removes that row, and the
output has 0 rows instead of n-1 = 1. -/
theorem row_count_fails_on_zero_prices_cex :
    (∀ p ∈ ([(0, [Cell.fin 0]), (1, [Cell.fin 0])] : Frame ℚ),
        ∀ c ∈ p.2, c ≠ Cell.na) ∧
      (simple_returnsDF ([(0, [Cell.fin 0]), (1, [Cell.fin 0])] : Frame ℚ)).length ≠ 2 - 1 := by
  decide

/-! ## C5 (amended part): row counts under nonzero prices -/

theorem pctCell_fin_of_ne_zero (x y : α) (hy : y ≠ 0) :
    pctCell (Cell.fin x) (Cell.fin y) = Cell.fin (x / y - 1) := by
  simp [pctCell, cdiv, hy, csub1]

omit [LinearOrderedField α] in
theorem diffAuxF_length (g : Cell α → Cell α → Cell α) :
    ∀ (rs : Frame α) (prev : List (Cell α)), (diffAuxF g prev rs).length = rs.length := by
  intro rs
  induction rs with
  | nil => intro prev; rfl
  | cons p rs ih =>
    intro prev
    obtain ⟨t, r⟩ := p
    simp [diffAuxF, ih]

theorem diffAuxF_rows_of_nonzero :
    ∀ (rs : Frame α) (prev : List (Cell α)) (w : ℕ),
      prev.length = w →
      (∀ c ∈ prev, ∃ x, c = Cell.fin x ∧ x ≠ 0) →
      (∀ p ∈ rs, p.2.length = w ∧ ∀ c ∈ p.2, ∃ x, c = Cell.fin x ∧ x ≠ 0) →
      ∀ p ∈ diffAuxF pctCell prev rs, p.2.any Cell.isna = false ∧ p.2.length = w := by
  intro rs
  induction rs with
  | nil => intro prev w _ _ _ p hp; simp [diffAuxF] at hp
  | cons q rs ih =>
    intro prev w hprevlen hprev hrows p hp
    obtain ⟨t, r⟩ := q
    have hr := hrows (t, r) (List.mem_cons_self _ _)
    rw [diffAuxF] at hp
    rcases List.mem_cons.mp hp with h | h
    · subst h
      constructor
      · rw [List.any_eq_false]
        intro c hc
        rcases List.mem_map.mp hc with ⟨pr, hpr, hform⟩
        have hz := List.of_mem_zip hpr
        rcases hr.2 pr.1 hz.1 with ⟨x, hx, _⟩
        rcases hprev pr.2 hz.2 with ⟨y, hy, hy0⟩
        rw [← hform, hx, hy, pctCell_fin_of_ne_zero x y hy0]
        simp [Cell.isna]
      · simp [List.length_zip, hprevlen, hr.1]
    · exact ih r w hr.1 hr.2 (fun q hq => hrows q (List.mem_cons_of_mem _ hq)) p h

/-- C5, amended: the claim holds once zero prices are excluded (the
counterexample above shows a pair of consecutive zero prices makes
`pct_change` produce 0/0 = NaN, which `dropna` then removes).  For every
non-empty PriceTable with no missing values, at least one instrument, and
all prices nonzero, `simple_returns` has exactly n-1 rows, each still
covering every instrument. -/
theorem row_count_n_minus_one_of_nonzero (f : Frame α) (w : ℕ)
    (hw : 0 < w) (hne : f ≠ [])
    (hlen : ∀ p ∈ f, p.2.length = w)
    (hval : ∀ p ∈ f, ∀ c ∈ p.2, ∃ x, c = Cell.fin x ∧ x ≠ 0) :
    (simple_returnsDF f).length = f.length - 1 ∧
      ∀ p ∈ simple_returnsDF f, p.2.length = w := by
  obtain ⟨⟨t0, r0⟩, rest, rfl⟩ : ∃ q rest, f = q :: rest := by
    cases f with
    | nil => exact absurd rfl hne
    | cons q rest => exact ⟨q, rest, rfl⟩
  have hr0len : r0.length = w := hlen _ (List.mem_cons_self _ _)
  have hr0val := hval _ (List.mem_cons_self _ _)
  have hrows : ∀ p ∈ rest, p.2.length = w ∧ ∀ c ∈ p.2, ∃ x, c = Cell.fin x ∧ x ≠ 0 :=
    fun p hp => ⟨hlen p (List.mem_cons_of_mem _ hp), hval p (List.mem_cons_of_mem _ hp)⟩
  have hgood := diffAuxF_rows_of_nonzero rest r0 w hr0len hr0val hrows
  -- the first produced row is entirely NaN and gets dropped
  obtain ⟨c0, r0', rfl⟩ : ∃ c0 r0', r0 = c0 :: r0' := by
    cases r0 with
    | nil => simp at hr0len; omega
    | cons c0 r0' => exact ⟨c0, r0', rfl⟩
  have hfirst : ((c0 :: r0').map (fun c => pctCell c Cell.na)).any Cell.isna = true := by
    simp only [List.map_cons, List.any_cons, pctCell_na_right]
    simp [Cell.isna]
  have hkeep : ∀ p ∈ diffAuxF pctCell (c0 :: r0') rest, (! p.2.any Cell.isna) = true := by
    intro p hp
    simp [(hgood p hp).1]
  constructor
  · show (dropnaF (diffFrameWith pctCell _)).length = _
    rw [diffFrameWith, dropnaF, List.filter_cons]
    have hdrop : (!(List.map (fun c => pctCell c Cell.na) (c0 :: r0')).any Cell.isna) = false := by
      rw [hfirst]
      rfl
    rw [hdrop, if_neg (by simp), List.filter_eq_self.mpr hkeep, diffAuxF_length]
    simp
  · intro p hp
    simp only [simple_returnsDF, dropnaF] at hp
    have hp' : p ∈ diffAuxF pctCell (c0 :: r0') rest := by
      have hmem : p ∈ diffFrameWith pctCell ((t0, c0 :: r0') :: rest) := List.mem_of_mem_filter hp
      rw [diffFrameWith] at hmem
      rcases List.mem_cons.mp hmem with h | h
      · exfalso
        have hkept := List.of_mem_filter hp
        rw [h] at hkept
        simp only [hfirst] at hkept
        simp at hkept
      · exact h
    exact (hgood p hp').2

/-! ## C4 (amended part): exclusion of undefined arithmetic -/

/-- A price cell as the fetch layer can deliver it when all quoted prices
are strictly positive: missing, or finite and positive. -/
def goodPrice (c : Cell α) : Prop :=
  c = Cell.na ∨ ∃ x, c = Cell.fin x ∧ 0 < x

omit [LinearOrderedField α] in
theorem isna_eq_false_iff (c : Cell α) : c.isna = false ↔ c ≠ Cell.na := by
  cases c <;> simp [Cell.isna]

theorem pctCell_good (a b : Cell α) (ha : goodPrice a) (hb : goodPrice b) :
    pctCell a b = Cell.na ∨ ∃ x, pctCell a b = Cell.fin x := by
  rcases ha with rfl | ⟨x, rfl, hx⟩
  · left; exact pctCell_na_left b
  · rcases hb with rfl | ⟨y, rfl, hy⟩
    · left; exact pctCell_na_right _
    · right
      exact ⟨x / y - 1, pctCell_fin_of_ne_zero x y (ne_of_gt hy)⟩

theorem logCell_good (a b : Cell ℝ) (ha : goodPrice a) (hb : goodPrice b) :
    logCell a b = Cell.na ∨ ∃ x, logCell a b = Cell.fin x := by
  rcases ha with rfl | ⟨x, rfl, hx⟩
  · left; exact logCell_na_left b
  · rcases hb with rfl | ⟨y, rfl, hy⟩
    · left; exact logCell_na_right _
    · right
      refine ⟨Real.log (x / y), ?_⟩
      have hy0 : y ≠ 0 := ne_of_gt hy
      have hpos : 0 < x / y := div_pos hx hy
      simp [logCell, cdiv, hy0, clog, hpos]

theorem diffAuxF_cells_good (g : Cell α → Cell α → Cell α)
    (hg : ∀ a b, goodPrice a → goodPrice b → g a b = Cell.na ∨ ∃ x, g a b = Cell.fin x) :
    ∀ (rs : Frame α) (prev : List (Cell α)),
      (∀ c ∈ prev, goodPrice c) → (∀ p ∈ rs, ∀ c ∈ p.2, goodPrice c) →
      ∀ p ∈ diffAuxF g prev rs, ∀ c ∈ p.2, c = Cell.na ∨ ∃ x, c = Cell.fin x := by
  intro rs
  induction rs with
  | nil => intro prev _ _ p hp; simp [diffAuxF] at hp
  | cons q rs ih =>
    intro prev hprev hrows p hp
    obtain ⟨t, r⟩ := q
    have hr : ∀ c ∈ r, goodPrice c := hrows (t, r) (List.mem_cons_self _ _)
    rw [diffAuxF] at hp
    rcases List.mem_cons.mp hp with h | h
    · subst h
      intro c hc
      rcases List.mem_map.mp hc with ⟨pr, hpr, hform⟩
      have hz := List.of_mem_zip hpr
      exact hform ▸ hg pr.1 pr.2 (hr pr.1 hz.1) (hprev pr.2 hz.2)
    · exact ih r hr (fun q hq => hrows q (List.mem_cons_of_mem _ hq)) p h

theorem dropnaF_diff_cells_fin (g : Cell α → Cell α → Cell α)
    (hg : ∀ a b, goodPrice a → goodPrice b → g a b = Cell.na ∨ ∃ x, g a b = Cell.fin x)
    (f : Frame α) (hf : ∀ p ∈ f, ∀ c ∈ p.2, goodPrice c) :
    ∀ p ∈ dropnaF (diffFrameWith g f), ∀ c ∈ p.2, ∃ x, c = Cell.fin x := by
  intro p hp c hc
  have hkept := List.of_mem_filter hp
  have hne : c ≠ Cell.na := by
    have hall : p.2.any Cell.isna = false := by
      cases h : p.2.any Cell.isna
      · rfl
      · rw [h] at hkept; simp at hkept
    intro hEq
    exact (List.any_eq_false.mp hall c hc) (by rw [hEq]; rfl)
  have hmem := List.mem_of_mem_filter hp
  cases f with
  | nil => simp [diffFrameWith] at hmem
  | cons q rs =>
    obtain ⟨t, r⟩ := q
    have hr : ∀ c ∈ r, goodPrice c := hf (t, r) (List.mem_cons_self _ _)
    rw [diffFrameWith] at hmem
    rcases List.mem_cons.mp hmem with h | h
    · subst h
      rcases List.mem_map.mp hc with ⟨c0, hc0, hform⟩
      rcases hg c0 Cell.na (hr c0 hc0) (Or.inl rfl) with hna | hfin
      · exact absurd (hform ▸ hna) hne
      · exact hform ▸ hfin
    · rcases diffAuxF_cells_good g hg rs r hr
          (fun q hq => hf q (List.mem_cons_of_mem _ hq)) p h c hc with hna | hfin
      · exact absurd hna hne
      · exact hfin

/-- C4, amended: rows whose required prior value is missing are excluded
before the arithmetic step, but rows with a zero prior price are not
(the counterexample above shows the division is evaluated and its
infinite result appears in the output).  When every present price is
strictly positive, no division by zero and no logarithm of a non-positive
number is reached, and every value in the output of both
`simple_returns` and `continuously_compound_returns` is finite. -/
theorem positive_prices_yield_finite_returns (f : Frame ℝ)
    (hf : ∀ p ∈ f, ∀ c ∈ p.2, goodPrice c) :
    (∀ p ∈ simple_returnsDF f, ∀ c ∈ p.2, ∃ x, c = Cell.fin x) ∧
      ∀ p ∈ continuously_compound_returnsDF f, ∀ c ∈ p.2, ∃ x, c = Cell.fin x :=
  ⟨dropnaF_diff_cells_fin pctCell pctCell_good f hf,
    dropnaF_diff_cells_fin logCell logCell_good f hf⟩

/-- Witness for the amended C4 on a concrete table with one missing price
and positive prices elsewhere. -/
theorem positive_prices_yield_finite_returns_witness :
    (∀ p ∈ simple_returnsDF ([(0, [Cell.fin 100]), (1, [Cell.na]), (2, [Cell.fin 121])] : Frame ℝ),
        ∀ c ∈ p.2, ∃ x, c = Cell.fin x) ∧
      ∀ p ∈ continuously_compound_returnsDF
          ([(0, [Cell.fin 100]), (1, [Cell.na]), (2, [Cell.fin 121])] : Frame ℝ),
        ∀ c ∈ p.2, ∃ x, c = Cell.fin x :=
  positive_prices_yield_finite_returns _ (by
    intro p hp c hc
    simp only [List.mem_cons, List.not_mem_nil, or_false] at hp
    rcases hp with rfl | rfl | rfl <;> simp only [List.mem_singleton] at hc <;> subst hc
    · exact Or.inr ⟨100, rfl, by norm_num⟩
    · exact Or.inl rfl
    · exact Or.inr ⟨121, rfl, by norm_num⟩)

/-- Witness for the amended C5 on a concrete one-instrument table with
three nonzero prices. -/
theorem row_count_n_minus_one_of_nonzero_witness :
    (simple_returnsDF ([(0, [Cell.fin 2]), (1, [Cell.fin 4]), (2, [Cell.fin 1])] : Frame ℚ)).length
        = 3 - 1 ∧
      ∀ p ∈ simple_returnsDF ([(0, [Cell.fin 2]), (1, [Cell.fin 4]), (2, [Cell.fin 1])] : Frame ℚ),
        p.2.length = 1 := by
  have h := row_count_n_minus_one_of_nonzero
      ([(0, [Cell.fin 2]), (1, [Cell.fin 4]), (2, [Cell.fin 1])] : Frame ℚ) 1
      (by norm_num) (by simp)
      (by intro p hp; simp only [List.mem_cons, List.not_mem_nil, or_false] at hp
          rcases hp with rfl | rfl | rfl <;> rfl)
      (by intro p hp c hc
          simp only [List.mem_cons, List.not_mem_nil, or_false] at hp
          rcases hp with rfl | rfl | rfl <;> simp only [List.mem_singleton] at hc <;> subst hc
          · exact ⟨2, rfl, by norm_num⟩
          · exact ⟨4, rfl, by norm_num⟩
          · exact ⟨1, rfl, by norm_num⟩)
  simpa using h

/-! ## C3 (amended part): a missing value drops whole rows -/

omit [LinearOrderedField α] in
theorem get?_map_zip (g : Cell α → Cell α → Cell α) :
    ∀ (l1 l2 : List (Cell α)) (j : ℕ) (a b : Cell α),
      l1.get? j = some a → l2.get? j = some b →
      ((l1.zip l2).map (fun p => g p.1 p.2)).get? j = some (g a b) := by
  intro l1
  induction l1 with
  | nil => intro l2 j a b h1 _; simp at h1
  | cons c cs ih =>
    intro l2 j a b h1 h2
    cases l2 with
    | nil => simp at h2
    | cons d ds =>
      cases j with
      | zero =>
        simp only [List.get?] at h1 h2
        injection h1 with h1
        injection h2 with h2
        subst h1; subst h2
        rfl
      | succ j =>
        simp only [List.get?] at h1 h2
        rw [List.zip_cons_cons, List.map_cons, List.get?_cons_succ]
        exact ih ds j a b h1 h2

omit [LinearOrderedField α] in
theorem diffAuxF_fst (g : Cell α → Cell α → Cell α) :
    ∀ (rs : Frame α) (prev : List (Cell α)),
      (diffAuxF g prev rs).map Prod.fst = rs.map Prod.fst := by
  intro rs
  induction rs with
  | nil => intro prev; rfl
  | cons q rs ih =>
    intro prev
    obtain ⟨t, r⟩ := q
    simp [diffAuxF, ih]

omit [LinearOrderedField α] in
theorem diffFrameWith_fst (g : Cell α → Cell α → Cell α) (f : Frame α) :
    (diffFrameWith g f).map Prod.fst = f.map Prod.fst := by
  cases f with
  | nil => rfl
  | cons q rs =>
    obtain ⟨t, r⟩ := q
    simp [diffFrameWith, diffAuxF_fst]

omit [LinearOrderedField α] in
theorem mem_dropnaF {f : Frame α} {p : ℕ × List (Cell α)} (hp : p ∈ dropnaF f) :
    p ∈ f ∧ ∀ c ∈ p.2, c ≠ Cell.na := by
  refine ⟨List.mem_of_mem_filter hp, ?_⟩
  have hkept := List.of_mem_filter hp
  intro c hc hEq
  have hall : p.2.any Cell.isna = false := by
    cases h : p.2.any Cell.isna
    · rfl
    · rw [h] at hkept; simp at hkept
  exact (List.any_eq_false.mp hall c hc) (by rw [hEq]; rfl)

omit [LinearOrderedField α] in
theorem diffAuxF_na_rows (g : Cell α → Cell α → Cell α)
    (hgl : ∀ c, g c Cell.na = Cell.na) (hgr : ∀ c, g Cell.na c = Cell.na)
    (t u : ℕ) (r s : List (Cell α)) (j w : ℕ) (post : Frame α)
    (hj : j < w) (hr : r.get? j = some Cell.na) (hs : j < s.length) :
    ∀ (pre : Frame α) (prev : List (Cell α)),
      (∀ p ∈ pre, p.2.length = w) → prev.length = w →
      (∃ r', (t, r') ∈ diffAuxF g prev (pre ++ (t, r) :: (u, s) :: post) ∧
          r'.get? j = some Cell.na) ∧
        ∃ s', (u, s') ∈ diffAuxF g prev (pre ++ (t, r) :: (u, s) :: post) ∧
          s'.get? j = some Cell.na := by
  intro pre
  induction pre with
  | nil =>
    intro prev _ hprevlen
    rw [List.nil_append, diffAuxF, diffAuxF]
    constructor
    · obtain ⟨b, hb⟩ : ∃ b, prev.get? j = some b :=
        ⟨prev.get ⟨j, hprevlen ▸ hj⟩, List.get?_eq_get _⟩
      refine ⟨_, List.mem_cons_self _ _, ?_⟩
      rw [get?_map_zip g r prev j Cell.na b hr hb, hgr]
    · obtain ⟨a, ha⟩ : ∃ a, s.get? j = some a := ⟨s.get ⟨j, hs⟩, List.get?_eq_get _⟩
      refine ⟨_, List.mem_cons_of_mem _ (List.mem_cons_self _ _), ?_⟩
      rw [get?_map_zip g s r j a Cell.na ha hr, hgl]
  | cons q pre ih =>
    intro prev hpre _
    obtain ⟨tq, rq⟩ := q
    rw [List.cons_append, diffAuxF]
    have hq : rq.length = w := hpre (tq, rq) (List.mem_cons_self _ _)
    rcases ih rq (fun p hp => hpre p (List.mem_cons_of_mem _ hp)) hq with
      ⟨⟨r', hr'm, hr'⟩, ⟨s', hs'm, hs'⟩⟩
    exact ⟨⟨r', List.mem_cons_of_mem _ hr'm, hr'⟩, ⟨s', List.mem_cons_of_mem _ hs'm, hs'⟩⟩

omit [LinearOrderedField α] in
theorem dropna_diff_excludes (g : Cell α → Cell α → Cell α)
    (hgl : ∀ c, g c Cell.na = Cell.na) (hgr : ∀ c, g Cell.na c = Cell.na)
    (pre post : Frame α) (t u : ℕ) (r s : List (Cell α)) (j w : ℕ)
    (hlen : ∀ p ∈ pre ++ (t, r) :: (u, s) :: post, p.2.length = w)
    (hj : j < w) (hr : r.get? j = some Cell.na)
    (hnodup : ((pre ++ (t, r) :: (u, s) :: post).map Prod.fst).Nodup) :
    ∀ p ∈ dropnaF (diffFrameWith g (pre ++ (t, r) :: (u, s) :: post)),
      p.1 ≠ t ∧ p.1 ≠ u := by
  have hs : j < s.length := by
    rw [hlen (u, s) (List.mem_append_right _ (List.mem_cons_of_mem _ (List.mem_cons_self _ _)))]
    exact hj
  have hrlen : j < r.length := List.get?_eq_some.mp hr |>.fst |> (fun h => by
    rcases List.get?_eq_some.mp hr with ⟨hlt, _⟩; exact hlt)
  -- both the missing row and the following row occur in the diff with NaN at column j
  have hbad : (∃ r', (t, r') ∈ diffFrameWith g (pre ++ (t, r) :: (u, s) :: post) ∧
      r'.get? j = some Cell.na) ∧
      ∃ s', (u, s') ∈ diffFrameWith g (pre ++ (t, r) :: (u, s) :: post) ∧
        s'.get? j = some Cell.na := by
    cases pre with
    | nil =>
      rw [List.nil_append, diffFrameWith]
      constructor
      · refine ⟨_, List.mem_cons_self _ _, ?_⟩
        rw [List.get?_map, hr]
        simp [hgr]
      · rw [diffAuxF]
        obtain ⟨a, ha⟩ : ∃ a, s.get? j = some a := ⟨s.get ⟨j, hs⟩, List.get?_eq_get _⟩
        refine ⟨_, List.mem_cons_of_mem _ (List.mem_cons_self _ _), ?_⟩
        rw [get?_map_zip g s r j a Cell.na ha hr, hgl]
    | cons q pre' =>
      obtain ⟨tq, rq⟩ := q
      rw [List.cons_append, diffFrameWith]
      have hq : rq.length = w := hlen (tq, rq) (List.mem_cons_self _ _)
      have hpre' : ∀ p ∈ pre', p.2.length = w := fun p hp =>
        hlen p (List.mem_cons_of_mem _ (List.mem_append_left _ hp))
      rcases diffAuxF_na_rows g hgl hgr t u r s j w post hj hr hs pre' rq hpre' hq with
        ⟨⟨r', hr'm, hr'⟩, ⟨s', hs'm, hs'⟩⟩
      exact ⟨⟨r', List.mem_cons_of_mem _ hr'm, hr'⟩, ⟨s', List.mem_cons_of_mem _ hs'm, hs'⟩⟩
  intro p hp
  rcases mem_dropnaF hp with ⟨hpmem, hpna⟩
  have hnodup' : ((diffFrameWith g (pre ++ (t, r) :: (u, s) :: post)).map Prod.fst).Nodup := by
    rw [diffFrameWith_fst]
    exact hnodup
  constructor
  · intro hpt
    rcases hbad.1 with ⟨r', hr'm, hr'⟩
    have : p = (t, r') :=
      List.inj_on_of_nodup_map hnodup' hpmem hr'm (by rw [hpt])
    exact hpna Cell.na (by rw [this]; exact List.get?_mem hr') rfl
  · intro hpu
    rcases hbad.2 with ⟨s', hs'm, hs'⟩
    have : p = (u, s') :=
      List.inj_on_of_nodup_map hnodup' hpmem hs'm (by rw [hpu])
    exact hpna Cell.na (by rw [this]; exact List.get?_mem hs') rfl

/-- C3, amended: the claim is false as stated (see the counterexample
above): pandas `dropna` drops a whole row when any column is NaN.  What
holds instead: if instrument j is missing at timestamp t, then both
`simple_returns` and `log_returns` exclude the rows at t and at the
following timestamp u for EVERY instrument; no output row carries
either timestamp. -/
theorem missing_row_dropped_for_all_instruments (pre post : Frame ℝ) (t u : ℕ)
    (r s : List (Cell ℝ)) (j w : ℕ)
    (hlen : ∀ p ∈ pre ++ (t, r) :: (u, s) :: post, p.2.length = w)
    (hj : j < w) (hr : r.get? j = some Cell.na)
    (hnodup : ((pre ++ (t, r) :: (u, s) :: post).map Prod.fst).Nodup) :
    (∀ p ∈ simple_returnsDF (pre ++ (t, r) :: (u, s) :: post), p.1 ≠ t ∧ p.1 ≠ u) ∧
      ∀ p ∈ continuously_compound_returnsDF (pre ++ (t, r) :: (u, s) :: post),
        p.1 ≠ t ∧ p.1 ≠ u :=
  ⟨dropna_diff_excludes pctCell pctCell_na_right pctCell_na_left
      pre post t u r s j w hlen hj hr hnodup,
    dropna_diff_excludes logCell logCell_na_right logCell_na_left
      pre post t u r s j w hlen hj hr hnodup⟩

/-- Witness for the amended C3 on the concrete two-instrument table whose
first instrument is missing at timestamp 1. -/
theorem missing_row_dropped_for_all_instruments_witness :
    (∀ p ∈ simple_returnsDF ([(0, [Cell.fin 100, Cell.fin 100]),
        (1, [Cell.na, Cell.fin 110]), (2, [Cell.fin 121, Cell.fin 121])] : Frame ℝ),
      p.1 ≠ 1 ∧ p.1 ≠ 2) ∧
      ∀ p ∈ continuously_compound_returnsDF ([(0, [Cell.fin 100, Cell.fin 100]),
          (1, [Cell.na, Cell.fin 110]), (2, [Cell.fin 121, Cell.fin 121])] : Frame ℝ),
        p.1 ≠ 1 ∧ p.1 ≠ 2 := by
  have h := missing_row_dropped_for_all_instruments
      [(0, [Cell.fin 100, Cell.fin 100])] [] 1 2
      [Cell.na, Cell.fin 110] [Cell.fin 121, Cell.fin 121] 0 2
      (by intro p hp
          simp only [List.cons_append, List.nil_append, List.mem_cons,
            List.not_mem_nil, or_false] at hp
          rcases hp with rfl | rfl | rfl <;> rfl)
      (by norm_num) rfl (by simp)
  simpa using h

/-! ## C1: simple returns compound back to total price relative -/

theorem cprodSkipna_cons_fin (x : α) (xs : List (Cell α)) :
    cprodSkipna (Cell.fin x :: xs) = cmul (Cell.fin x) (cprodSkipna xs) := by
  simp [cprodSkipna, dropnaS, List.filter_cons, Cell.isna]

theorem telescope_prod (rest : List ℝ) :
    ∀ a : ℝ, a ≠ 0 → (∀ x ∈ rest, x ≠ 0) →
      cprodSkipna ((dropnaS (diffAuxS pctCell (Cell.fin a) (rest.map Cell.fin))).map cadd1) =
        Cell.fin ((a :: rest).getLast (List.cons_ne_nil a rest) / a) := by
  induction rest with
  | nil =>
    intro a ha _
    show cprodSkipna [] = _
    rw [show cprodSkipna ([] : List (Cell ℝ)) = Cell.fin 1 from rfl]
    rw [List.getLast_singleton, div_self ha]
  | cons b l ih =>
    intro a ha hbl
    have hb : b ≠ 0 := hbl b (List.mem_cons_self _ _)
    have hstep : diffAuxS pctCell (Cell.fin a) ((b :: l).map Cell.fin) =
        Cell.fin (b / a - 1) :: diffAuxS pctCell (Cell.fin b) (l.map Cell.fin) := by
      rw [List.map_cons, diffAuxS, pctCell_fin_of_ne_zero b a ha]
    rw [hstep]
    have hkeep : dropnaS (Cell.fin (b / a - 1) :: diffAuxS pctCell (Cell.fin b) (l.map Cell.fin)) =
        Cell.fin (b / a - 1) :: dropnaS (diffAuxS pctCell (Cell.fin b) (l.map Cell.fin)) := by
      simp [dropnaS, List.filter_cons, Cell.isna]
    rw [hkeep, List.map_cons, show cadd1 (Cell.fin (b / a - 1)) = Cell.fin (1 + (b / a - 1)) from rfl,
      cprodSkipna_cons_fin, ih b hb (fun x hx => hbl x (List.mem_cons_of_mem _ hx))]
    rw [show cmul (Cell.fin (1 + (b / a - 1)))
        (Cell.fin ((b :: l).getLast (List.cons_ne_nil b l) / b)) =
      Cell.fin ((1 + (b / a - 1)) * ((b :: l).getLast (List.cons_ne_nil b l) / b)) from rfl]
    rw [List.getLast_cons (List.cons_ne_nil b l)]
    congr 1
    field_simp
    ring

/-- C1: for an instrument with at least two present, strictly positive
prices and no missing values, compounding its simple returns with
`(1 + r).prod() - 1` gives exactly the total price relative minus one,
`last / first - 1` (the product telescopes). -/
theorem simple_return_compound_telescopes (a : ℝ) (rest : List ℝ)
    (_hlen : 1 ≤ rest.length) (ha : 0 < a) (hrest : ∀ x ∈ rest, 0 < x) :
    compound_simple_returns_over_period (simple_returns ((a :: rest).map Cell.fin)) =
      Cell.fin ((a :: rest).getLast (List.cons_ne_nil a rest) / a - 1) := by
  have hdrop : simple_returns ((a :: rest).map Cell.fin) =
      dropnaS (diffAuxS pctCell (Cell.fin a) (rest.map Cell.fin)) := by
    rw [simple_returns, List.map_cons, diffSeriesWith, pctCell_na_right]
    simp [dropnaS, List.filter_cons, Cell.isna]
  rw [compound_simple_returns_over_period, hdrop,
    telescope_prod rest a (ne_of_gt ha) (fun x hx => ne_of_gt (hrest x hx))]
  rfl

/-- Witness for C1 at the spec's example prices 100, 110, 121: the
compounded simple return is 0.21. -/
theorem simple_return_compound_telescopes_witness :
    compound_simple_returns_over_period
        (simple_returns (([100, 110, 121] : List ℝ).map Cell.fin)) =
      Cell.fin (21 / 100) := by
  have h := simple_return_compound_telescopes 100 [110, 121]
      (by norm_num) (by norm_num)
      (by intro x hx
          simp only [List.mem_cons, List.not_mem_nil, or_false] at hx
          rcases hx with rfl | rfl <;> norm_num)
  rw [h]
  norm_num [List.getLast]

/-! ## C2: log returns compound back to the log price relative -/

theorem logCell_fin_pos (x y : ℝ) (hx : 0 < x) (hy : 0 < y) :
    logCell (Cell.fin x) (Cell.fin y) = Cell.fin (Real.log (x / y)) := by
  simp [logCell, cdiv, ne_of_gt hy, clog, div_pos hx hy]

theorem csumSkipna_cons_fin (x : ℝ) (xs : List (Cell ℝ)) :
    csumSkipna (Cell.fin x :: xs) = cadd (Cell.fin x) (csumSkipna xs) := by
  simp [csumSkipna, dropnaS, List.filter_cons, Cell.isna]

theorem telescope_sum (rest : List (ℕ × ℝ)) :
    ∀ a : ℝ, 0 < a → (∀ q ∈ rest, 0 < q.2) →
      csumSkipna (colOf 0 (dropnaF (diffAuxF logCell [Cell.fin a] (mkSingleFrame rest)))) =
        Cell.fin (Real.log
          ((a :: rest.map Prod.snd).getLast (List.cons_ne_nil _ _) / a)) := by
  induction rest with
  | nil =>
    intro a ha _
    show csumSkipna [] = _
    rw [show csumSkipna ([] : List (Cell ℝ)) = Cell.fin 0 from rfl]
    rw [List.map_nil, List.getLast_singleton, div_self (ne_of_gt ha), Real.log_one]
  | cons q l ih =>
    intro a ha hql
    obtain ⟨tb, b⟩ := q
    have hb : 0 < b := hql (tb, b) (List.mem_cons_self _ _)
    have hstep : diffAuxF logCell [Cell.fin a] (mkSingleFrame ((tb, b) :: l)) =
        (tb, [Cell.fin (Real.log (b / a))]) ::
          diffAuxF logCell [Cell.fin b] (mkSingleFrame l) := by
    -- the zip of the singleton rows gives exactly one combined cell
      show (tb, ([Cell.fin b].zip [Cell.fin a]).map (fun p => logCell p.1 p.2)) :: _ = _
      rw [show ([Cell.fin b].zip [Cell.fin a]).map (fun p => logCell p.1 p.2) =
          [logCell (Cell.fin b) (Cell.fin a)] from rfl, logCell_fin_pos b a hb ha]
      rfl
    rw [hstep]
    have hkeep : dropnaF ((tb, [Cell.fin (Real.log (b / a))]) ::
        diffAuxF logCell [Cell.fin b] (mkSingleFrame l)) =
        (tb, [Cell.fin (Real.log (b / a))]) ::
          dropnaF (diffAuxF logCell [Cell.fin b] (mkSingleFrame l)) := by
      simp [dropnaF, List.filter_cons, Cell.isna]
    rw [hkeep]
    have hcol : colOf 0 ((tb, [Cell.fin (Real.log (b / a))]) ::
        dropnaF (diffAuxF logCell [Cell.fin b] (mkSingleFrame l))) =
        Cell.fin (Real.log (b / a)) ::
          colOf 0 (dropnaF (diffAuxF logCell [Cell.fin b] (mkSingleFrame l))) := by
      simp [colOf]
    rw [hcol, csumSkipna_cons_fin, ih b hb (fun q hq => hql q (List.mem_cons_of_mem _ hq))]
    have hlast : ((b :: l.map Prod.snd).getLast (List.cons_ne_nil _ _)) ∈ b :: l.map Prod.snd :=
      List.getLast_mem _
    have hlastpos : 0 < (b :: l.map Prod.snd).getLast (List.cons_ne_nil _ _) := by
      rcases List.mem_cons.mp hlast with h | h
      · rw [h]; exact hb
      · rcases List.mem_map.mp h with ⟨q, hq, hform⟩
        exact hform ▸ hql q (List.mem_cons_of_mem _ hq)
    rw [show cadd (Cell.fin (Real.log (b / a)))
        (Cell.fin (Real.log ((b :: l.map Prod.snd).getLast (List.cons_ne_nil _ _) / b))) =
      Cell.fin (Real.log (b / a) +
        Real.log ((b :: l.map Prod.snd).getLast (List.cons_ne_nil _ _) / b)) from rfl]
    rw [List.map_cons, List.getLast_cons (List.cons_ne_nil _ _)]
    congr 1
    rw [Real.log_div (ne_of_gt hb) (ne_of_gt ha),
      Real.log_div (ne_of_gt hlastpos) (ne_of_gt hb),
      Real.log_div (ne_of_gt hlastpos) (ne_of_gt ha)]
    ring

/-- C2: for an instrument with at least two present, strictly positive
prices and no missing values, summing its continuously compounded (log)
returns gives exactly the log of the total price relative,
`ln(last / first)` (the sum telescopes). -/
theorem log_return_compound_telescopes (t0 : ℕ) (q0 : ℝ) (rest : List (ℕ × ℝ))
    (_hlen : 1 ≤ rest.length) (h0 : 0 < q0) (hrest : ∀ q ∈ rest, 0 < q.2) :
    compound_continuous_returns_over_period
        (colOf 0 (continuously_compound_returnsDF (mkSingleFrame ((t0, q0) :: rest)))) =
      Cell.fin (Real.log
        ((q0 :: rest.map Prod.snd).getLast (List.cons_ne_nil _ _) / q0)) := by
  have hdrop : continuously_compound_returnsDF (mkSingleFrame ((t0, q0) :: rest)) =
      dropnaF (diffAuxF logCell [Cell.fin q0] (mkSingleFrame rest)) := by
    show dropnaF (diffFrameWith logCell ((t0, [Cell.fin q0]) :: mkSingleFrame rest)) = _
    rw [diffFrameWith]
    have hfirst : [Cell.fin q0].map (fun c => logCell c Cell.na) = [Cell.na] := by
      rw [List.map_singleton, logCell_na_right]
    rw [hfirst, dropnaF, List.filter_cons]
    simp [Cell.isna, dropnaF]
  rw [compound_continuous_returns_over_period, hdrop, telescope_sum rest q0 h0 hrest]

/-- Witness for C2 at the spec's example prices 100, 110, 121: the
compounded log return is ln(121/100) = 2 ln(11/10). -/
theorem log_return_compound_telescopes_witness :
    compound_continuous_returns_over_period
        (colOf 0 (continuously_compound_returnsDF
          (mkSingleFrame [(0, 100), (1, 110), (2, 121)]))) =
      Cell.fin (2 * Real.log (11 / 10)) := by
  have h := log_return_compound_telescopes 0 100 [(1, 110), (2, 121)]
      (by norm_num) (by norm_num)
      (by intro q hq
          simp only [List.mem_cons, List.not_mem_nil, or_false] at hq
          rcases hq with rfl | rfl <;> norm_num)
  rw [show mkSingleFrame ((0, (100 : ℝ)) :: [(1, 110), (2, 121)]) =
      mkSingleFrame [(0, 100), (1, 110), (2, 121)] from rfl] at h
  rw [h]
  have hval : ((100 : ℝ) :: ([(1, (110 : ℝ)), (2, 121)] : List (ℕ × ℝ)).map Prod.snd).getLast
      (List.cons_ne_nil _ _) = 121 := rfl
  rw [hval]
  rw [show ((121 : ℝ) / 100) = (11 / 10) ^ 2 by norm_num]
  rw [Real.log_pow]
  norm_num

/-! ## C7: all-or-nothing universe resolution -/

/-- C7: resolving the index universe is all-or-nothing.  An unreachable
source yields the single fetch-failure error; a fetched page whose first
table lacks a Symbol column yields the same error; and whenever the
resolution succeeds, the result is exactly the full Symbol column of the
first table — never a subset. -/
theorem universe_resolution_all_or_nothing (html : Except Unit (List WikiTable)) :
    (html = Except.error () → fetchSp500Tickers html = Except.error wikiFailureMsg) ∧
      (∀ t0 rest, html = Except.ok (t0 :: rest) → getCol t0 "Symbol" = none →
        fetchSp500Tickers html = Except.error wikiFailureMsg) ∧
      ∀ ts, fetchSp500Tickers html = Except.ok ts →
        ∃ t0 rest, html = Except.ok (t0 :: rest) ∧ getCol t0 "Symbol" = some ts := by
  refine ⟨?_, ?_, ?_⟩
  · intro h; rw [h]; rfl
  · intro t0 rest h hcol
    rw [h, fetchSp500Tickers, hcol]
  · intro ts h
    cases html with
    | error e => simp [fetchSp500Tickers] at h
    | ok tables =>
      cases tables with
      | nil => simp [fetchSp500Tickers] at h
      | cons t0 rest =>
        cases hcol : getCol t0 "Symbol" with
        | none => rw [fetchSp500Tickers, hcol] at h; cases h
        | some found =>
          rw [fetchSp500Tickers, hcol] at h
          injection h with h
          exact ⟨t0, rest, rfl, by rw [hcol, h]⟩

/-- Witness for C7: a concrete page with a Symbol column resolves to
exactly that column, and a concrete fetch failure yields the error. -/
theorem universe_resolution_all_or_nothing_witness :
    (fetchSp500Tickers (Except.error ()) = Except.error wikiFailureMsg) ∧
      ∃ t0 rest, (Except.ok [WikiTable.mk [("Symbol", ["AAPL", "BRK.B"])]] :
          Except Unit (List WikiTable)) = Except.ok (t0 :: rest) ∧
        getCol t0 "Symbol" = some ["AAPL", "BRK.B"] :=
  ⟨(universe_resolution_all_or_nothing (Except.error ())).1 rfl,
    (universe_resolution_all_or_nothing
        (Except.ok [WikiTable.mk [("Symbol", ["AAPL", "BRK.B"])]])).2.2
      ["AAPL", "BRK.B"] rfl⟩

/-! ## C6: bulk failure triggers the per-ticker fallback -/

/-- C6: when the bulk download raises, the result is that of the
sequential per-ticker fallback; the fallback queries tickers in order and
at most once each; if every per-ticker request succeeds it queries each
requested ticker exactly once and assembles exactly the table a
successful bulk call would have produced; and if any per-ticker request
fails, the whole call fails with an error — no partial table is
returned. -/
theorem bulk_failure_fallback_per_ticker {ε σ : Type}
    (bulk : Except ε (List (String × σ))) (single : String → Except ε σ)
    (tickers : List String) (e : ε) (hbulk : bulk = Except.error e) :
    (fetchAdjClose bulk single tickers = (perTickerDownload single tickers).2) ∧
      (∃ k, (perTickerDownload single tickers).1 = tickers.take k) ∧
      (∀ d : String → σ, (∀ t ∈ tickers, single t = Except.ok (d t)) →
        (perTickerDownload single tickers).1 = tickers ∧
          fetchAdjClose bulk single tickers = Except.ok (bulkTableOf d tickers)) ∧
      ∀ t ∈ tickers, (∀ s, single t ≠ Except.ok s) →
        ∃ e2, fetchAdjClose bulk single tickers = Except.error e2 := by
  subst hbulk
  have hfall : fetchAdjClose (Except.error e) single tickers =
      (perTickerDownload single tickers).2 := rfl
  refine ⟨hfall, ?_, ?_, ?_⟩
  · clear hfall
    induction tickers with
    | nil => exact ⟨0, rfl⟩
    | cons t ts ih =>
      rw [perTickerDownload]
      cases h : single t with
      | error e2 => exact ⟨1, rfl⟩
      | ok s =>
        rcases ih with ⟨k, hk⟩
        exact ⟨k + 1, by simp [hk]⟩
  · intro d hall
    rw [hfall]
    have : ∀ ts : List String, (∀ t ∈ ts, single t = Except.ok (d t)) →
        (perTickerDownload single ts).1 = ts ∧
          (perTickerDownload single ts).2 = Except.ok (bulkTableOf d ts) := by
      intro ts
      induction ts with
      | nil => intro _; exact ⟨rfl, rfl⟩
      | cons t ts ih =>
        intro h
        have ht := h t (List.mem_cons_self _ _)
        rcases ih (fun x hx => h x (List.mem_cons_of_mem _ hx)) with ⟨h1, h2⟩
        rw [perTickerDownload, ht]
        constructor
        · simp [h1]
        · simp only [h2, bulkTableOf, List.map_cons]
          rfl
    rcases this tickers hall with ⟨h1, h2⟩
    exact ⟨h1, h2⟩
  · intro t ht hfail
    rw [hfall]
    clear hfall
    induction tickers with
    | nil => simp at ht
    | cons t0 ts ih =>
      rw [perTickerDownload]
      cases h : single t0 with
      | error e2 => exact ⟨e2, rfl⟩
      | ok s =>
        rcases List.mem_cons.mp ht with rfl | htl
        · exact absurd h (hfail s)
        · rcases ih htl with ⟨e2, he2⟩
          refine ⟨e2, ?_⟩
          show ((perTickerDownload single ts).2.map fun tbl => (t0, s) :: tbl) = _
          rw [he2]
          rfl

/-- Witness for C6: a failing bulk call with two tickers whose individual
downloads both succeed assembles the bulk-equivalent table after querying
each ticker exactly once. -/
theorem bulk_failure_fallback_per_ticker_witness :
    (perTickerDownload (fun t => (Except.ok t.length : Except Unit ℕ)) ["AAPL", "MSFT"]).1 =
        ["AAPL", "MSFT"] ∧
      fetchAdjClose (Except.error ()) (fun t => (Except.ok t.length : Except Unit ℕ))
          ["AAPL", "MSFT"] =
        Except.ok (bulkTableOf (fun t => t.length) ["AAPL", "MSFT"]) :=
  (bulk_failure_fallback_per_ticker (Except.error ())
      (fun t => (Except.ok t.length : Except Unit ℕ)) ["AAPL", "MSFT"] () rfl).2.2.1
    (fun t => t.length) (fun _ _ => rfl)
